import Mathlib

/-!
Verification of the LcfTrans translation core (EK720/Tools, src/lcftrans/src/main.cpp)
against its natural-language specification.

The repository ships the CLI driver (main.cpp); the Translation class that implements
the catalog data model, the PO codec, Merge and Match is declared in translation.h but
its implementation file is not part of the source tree here, so those components are
modelled from the specification (each such definition carries a doc comment starting
with "Modelled from the spec:").  The workflow orchestration (DumpLdb, DumpLmuLmtInner,
MatchMode, the std::sort calls and the std::ofstream writes) is embedded directly from
main.cpp.

Text is represented as its list of lines, a line being a list of characters; machine
strings are Lean strings.
-/

/-- Modelled from the spec: one translatable unit (section 3).  `context` is the ordered
sequence of path segments, `(context, original)` is the identity key, `locations` are
comment-only source references. -/
structure Entry where
  context : List String
  original : String
  translation : String
  fuzzy : Bool
  locations : List String
deriving DecidableEq

/-- Modelled from the spec: a catalog is an ordered collection of entries; a single
leading record with empty msgid is file-level metadata, preserved verbatim as raw
lines (sections 3, 4.1, 6). -/
structure Catalog where
  header : Option (List (List Char))
  entries : List Entry
deriving DecidableEq

/-- Modelled from the spec: backslash escaping applied by the codec when serializing a
text field: quote, backslash, newline and tab are escaped (section 4.1). -/
def escapeChars : List Char → List Char
  | [] => []
  | c :: cs =>
    if c = '"' then '\\' :: '"' :: escapeChars cs
    else if c = '\\' then '\\' :: '\\' :: escapeChars cs
    else if c = '\n' then '\\' :: 'n' :: escapeChars cs
    else if c = '\t' then '\\' :: 't' :: escapeChars cs
    else c :: escapeChars cs

/-- Modelled from the spec: inverse of `escapeChars`; a backslash followed by `n`/`t`
decodes to newline/tab, a backslash followed by any other character decodes to that
character (section 4.1). -/
def unescapeChars : List Char → List Char
  | [] => []
  | c :: cs =>
    if c = '\\' then
      match cs with
      | [] => [c]
      | d :: ds => (if d = 'n' then '\n' else if d = 't' then '\t' else d) :: unescapeChars ds
    else c :: unescapeChars cs

theorem unescapeChars_esc (d : Char) (ds : List Char) :
    unescapeChars ('\\' :: d :: ds) =
      (if d = 'n' then '\n' else if d = 't' then '\t' else d) :: unescapeChars ds := by
  simp [unescapeChars]

theorem unescapeChars_cons_of_ne (c : Char) (cs : List Char) (h : ¬c = '\\') :
    unescapeChars (c :: cs) = c :: unescapeChars cs := by
  cases cs <;> simp [unescapeChars, h]

theorem unescape_escape (l : List Char) : unescapeChars (escapeChars l) = l := by
  induction l with
  | nil => rfl
  | cons c cs ih =>
    unfold escapeChars
    split_ifs with h1 h2 h3 h4
    · subst h1; simp [unescapeChars_esc, ih]
    · subst h2; simp [unescapeChars_esc, ih]
    · subst h3; simp [unescapeChars_esc, ih]
    · subst h4; simp [unescapeChars_esc, ih]
    · rw [unescapeChars_cons_of_ne c _ h2, ih]

theorem escape_eq_nil (l : List Char) : escapeChars l = [] ↔ l = [] := by
  cases l with
  | nil => simp [escapeChars]
  | cons c cs => unfold escapeChars; split_ifs <;> simp

theorem unescape_eq_nil (l : List Char) : unescapeChars l = [] ↔ l = [] := by
  cases l with
  | nil => simp [unescapeChars]
  | cons c cs =>
    unfold unescapeChars
    split_ifs with h
    · cases cs <;> simp
    · simp

/-- Modelled from the spec: strip a literal prefix from a line, returning the remainder
when the prefix matches. -/
def dropPrefixChars : List Char → List Char → Option (List Char)
  | [], l => some l
  | _ :: _, [] => none
  | p :: ps, c :: cs => if c = p then dropPrefixChars ps cs else none

theorem dropPrefixChars_append (p l : List Char) :
    dropPrefixChars p (p ++ l) = some l := by
  induction p with
  | nil => rfl
  | cons c cs ih => simp [dropPrefixChars, ih]

/-- Modelled from the spec: a quoted field line carries its content between surrounding
double quotes; `stripQuotes` removes them (section 4.1). -/
def stripQuotes : List Char → Option (List Char)
  | [] => none
  | c :: cs =>
    if c = '"' ∧ cs ≠ [] ∧ cs.getLast? = some '"' then some cs.dropLast else none

/-- Surround a field content with double quotes. -/
def quoteChars (l : List Char) : List Char := '"' :: l ++ ['"']

theorem stripQuotes_quoteChars (l : List Char) :
    stripQuotes (quoteChars l) = some l := by
  simp [quoteChars, stripQuotes]

/-- Modelled from the spec: the context field is split into path segments on the
context-delimiter convention; the delimiter is fixed here as the slash character
(sections 4.1, 9). -/
def splitSegsAux (cur : List Char) : List Char → List (List Char)
  | [] => [cur]
  | c :: cs => if c = '/' then cur :: splitSegsAux [] cs else splitSegsAux (cur ++ [c]) cs

/-- Split a context string into its slash-separated segments. -/
def splitSegs (l : List Char) : List (List Char) := splitSegsAux [] l

/-- Modelled from the spec: context segments are joined with the slash delimiter at
serialization time (sections 4.1, 9). -/
def joinSegs : List (List Char) → List Char
  | [] => []
  | [s] => s
  | s :: ss => s ++ '/' :: joinSegs ss

theorem joinSegs_cons_cons (s s' : List Char) (ss : List (List Char)) :
    joinSegs (s :: s' :: ss) = s ++ '/' :: joinSegs (s' :: ss) := by
  simp [joinSegs]

theorem splitSegsAux_append (s : List Char) (hs : '/' ∉ s) :
    ∀ (cur rest : List Char),
      splitSegsAux cur (s ++ rest) = splitSegsAux (cur ++ s) rest := by
  induction s with
  | nil => intro cur rest; simp
  | cons c s' ih =>
    intro cur rest
    have hc : ¬c = '/' := by
      intro h; exact hs (h ▸ List.mem_cons_self c s')
    have hs' : '/' ∉ s' := fun h => hs (List.mem_cons_of_mem c h)
    simp only [List.cons_append, splitSegsAux, if_neg hc, List.append_eq]
    rw [ih hs' (cur ++ [c]) rest, List.append_assoc]
    rfl

theorem splitSegs_mem_no_slash :
    ∀ (l cur : List Char), '/' ∉ cur →
      ∀ s ∈ splitSegsAux cur l, '/' ∉ s := by
  intro l
  induction l with
  | nil => intro cur hcur s hs; simp [splitSegsAux] at hs; exact hs ▸ hcur
  | cons c cs ih =>
    intro cur hcur s hs
    by_cases hc : c = '/'
    · simp only [splitSegsAux, if_pos hc] at hs
      rcases List.mem_cons.mp hs with h | h
      · exact h ▸ hcur
      · exact ih [] (by simp) s h
    · simp only [splitSegsAux, if_neg hc] at hs
      refine ih (cur ++ [c]) ?_ s hs
      intro hmem
      rcases List.mem_append.mp hmem with h | h
      · exact hcur h
      · simp at h; exact hc h.symm

theorem splitSegsAux_ne_nil (l cur : List Char) : splitSegsAux cur l ≠ [] := by
  induction l generalizing cur with
  | nil => simp [splitSegsAux]
  | cons c cs ih =>
    by_cases hc : c = '/' <;> simp [splitSegsAux, hc, ih]

theorem splitSegs_joinSegs (css : List (List Char)) (hne : css ≠ [])
    (hfree : ∀ s ∈ css, '/' ∉ s) : splitSegs (joinSegs css) = css := by
  induction css with
  | nil => exact absurd rfl hne
  | cons s ss ih =>
    cases ss with
    | nil =>
      show splitSegsAux [] (joinSegs [s]) = [s]
      have : joinSegs [s] = s := rfl
      rw [this]
      have := splitSegsAux_append s (hfree s (List.mem_cons_self s [])) [] []
      simpa [splitSegsAux] using this
    | cons s' ss' =>
      show splitSegsAux [] (joinSegs (s :: s' :: ss')) = s :: s' :: ss'
      rw [joinSegs_cons_cons,
        splitSegsAux_append s (hfree s (List.mem_cons_self s _)) [] ('/' :: joinSegs (s' :: ss'))]
      simp only [List.nil_append, splitSegsAux, if_pos rfl]
      have : splitSegs (joinSegs (s' :: ss')) = s' :: ss' := by
        refine ih (by simp) ?_
        intro x hx; exact hfree x (List.mem_cons_of_mem s hx)
      exact congrArg (s :: ·) this

theorem splitSegs_idem (u : List Char) :
    splitSegs (joinSegs (splitSegs u)) = splitSegs u := by
  refine splitSegs_joinSegs _ (splitSegsAux_ne_nil u []) ?_
  exact splitSegs_mem_no_slash u [] (by simp)

/-- Modelled from the spec: records are maximal runs of non-blank lines; blank lines
separate records and extra blank lines carry no content (section 4.1). -/
def splitRecsAux (cur : List (List Char)) : List (List Char) → List (List (List Char))
  | [] => if cur = [] then [] else [cur]
  | l :: ls =>
    if l = [] then
      if cur = [] then splitRecsAux [] ls else cur :: splitRecsAux [] ls
    else splitRecsAux (cur ++ [l]) ls

/-- Split a text (list of lines) into its blank-line-separated records. -/
def splitRecs (ls : List (List Char)) : List (List (List Char)) := splitRecsAux [] ls

/-- Modelled from the spec: serialized records are separated by a single blank line
(section 4.1). -/
def joinRecs : List (List (List Char)) → List (List Char)
  | [] => []
  | [r] => r
  | r :: rs => r ++ [] :: joinRecs rs

theorem joinRecs_cons_cons (r r' : List (List Char)) (rs : List (List (List Char))) :
    joinRecs (r :: r' :: rs) = r ++ [] :: joinRecs (r' :: rs) := by
  simp [joinRecs]

theorem splitRecsAux_append (r : List (List Char)) (hr : ∀ x ∈ r, x ≠ []) :
    ∀ (cur rest : List (List Char)),
      splitRecsAux cur (r ++ rest) = splitRecsAux (cur ++ r) rest := by
  induction r with
  | nil => intro cur rest; simp
  | cons l r' ih =>
    intro cur rest
    have hl : ¬l = [] := hr l (List.mem_cons_self l r')
    have hr' : ∀ x ∈ r', x ≠ [] := fun x hx => hr x (List.mem_cons_of_mem l hx)
    simp only [List.cons_append, splitRecsAux, if_neg hl, List.append_eq]
    rw [ih hr' (cur ++ [l]) rest, List.append_assoc]
    rfl

theorem splitRecs_joinRecs (rs : List (List (List Char)))
    (h : ∀ r ∈ rs, r ≠ [] ∧ ∀ x ∈ r, x ≠ []) : splitRecs (joinRecs rs) = rs := by
  induction rs with
  | nil => rfl
  | cons r rs' ih =>
    have hrne : r ≠ [] := (h r (List.mem_cons_self r rs')).1
    have hrfree : ∀ x ∈ r, x ≠ [] := (h r (List.mem_cons_self r rs')).2
    cases rs' with
    | nil =>
      show splitRecsAux [] (joinRecs [r]) = [r]
      have hj : joinRecs [r] = r := rfl
      rw [hj]
      have := splitRecsAux_append r hrfree [] []
      simpa [splitRecsAux, hrne] using this
    | cons r' rs'' =>
      show splitRecsAux [] (joinRecs (r :: r' :: rs'')) = r :: r' :: rs''
      rw [joinRecs_cons_cons,
        splitRecsAux_append r hrfree [] ([] :: joinRecs (r' :: rs''))]
      simp only [List.nil_append, splitRecsAux, if_pos rfl, if_neg hrne]
      have : splitRecs (joinRecs (r' :: rs'')) = r' :: rs'' := by
        refine ih ?_
        intro x hx; exact h x (List.mem_cons_of_mem r hx)
      exact congrArg (r :: ·) this

theorem splitRecs_wf :
    ∀ (ls cur : List (List Char)), (∀ x ∈ cur, x ≠ []) →
      ∀ r ∈ splitRecsAux cur ls, r ≠ [] ∧ ∀ x ∈ r, x ≠ [] := by
  intro ls
  induction ls with
  | nil =>
    intro cur hcur r hr
    by_cases hc : cur = []
    · simp [splitRecsAux, hc] at hr
    · simp [splitRecsAux, hc] at hr
      exact hr ▸ ⟨hc, hcur⟩
  | cons l ls' ih =>
    intro cur hcur r hr
    by_cases hl : l = []
    · by_cases hc : cur = []
      · simp only [splitRecsAux, if_pos hl, if_pos hc] at hr
        exact ih [] (by simp) r hr
      · simp only [splitRecsAux, if_pos hl, if_neg hc] at hr
        rcases List.mem_cons.mp hr with h | h
        · exact h ▸ ⟨hc, hcur⟩
        · exact ih [] (by simp) r h
    · simp only [splitRecsAux, if_neg hl] at hr
      refine ih (cur ++ [l]) ?_ r hr
      intro x hx
      rcases List.mem_append.mp hx with h | h
      · exact hcur x h
      · simp at h; exact h ▸ hl

/-- Location comment prefix, the characters of a line starting a source reference. -/
def locPrefix : List Char := ['#', ':', ' ']

/-- The fuzzy marker line. -/
def fuzzyMarker : List Char := ['#', ',', ' ', 'f', 'u', 'z', 'z', 'y']

/-- Prefix of the context line. -/
def ctxPrefix : List Char := ['m', 's', 'g', 'c', 't', 'x', 't', ' ']

/-- Prefix of the original-text line. -/
def idPrefix : List Char := ['m', 's', 'g', 'i', 'd', ' ']

/-- Prefix of the translation-text line. -/
def strPrefix : List Char := ['m', 's', 'g', 's', 't', 'r', ' ']

/-- Which quoted field a continuation line extends. -/
inductive PoField where
  | fnone
  | fctx
  | fid
  | fstr
deriving DecidableEq

/-- Accumulated state while parsing one record; quoted contents are kept escaped and
unescaped only once the record is complete. -/
structure RecState where
  locs : List (List Char)
  fz : Bool
  ctx : Option (List Char)
  mid : Option (List Char)
  mstr : Option (List Char)
  last : PoField
deriving DecidableEq

/-- Parse a tagged quoted line such as an original-text line: strip the tag, then the
surrounding quotes. -/
def parseTagged (p l : List Char) : Option (List Char) :=
  match dropPrefixChars p l with
  | none => none
  | some r => stripQuotes r

/-- Modelled from the spec: consume one line of a record, recognizing location
comments, the fuzzy marker, context/original/translation fields and bare quoted
continuation lines; anything else is ignored (section 4.1). -/
def stepLine (st : RecState) (l : List Char) : RecState :=
  if l = fuzzyMarker then { st with fz := true, last := PoField.fnone }
  else
    match dropPrefixChars locPrefix l with
    | some loc => { st with locs := st.locs ++ [loc], last := PoField.fnone }
    | none =>
      match parseTagged ctxPrefix l with
      | some c => { st with ctx := some c, last := PoField.fctx }
      | none =>
        match parseTagged idPrefix l with
        | some i => { st with mid := some i, last := PoField.fid }
        | none =>
          match parseTagged strPrefix l with
          | some s => { st with mstr := some s, last := PoField.fstr }
          | none =>
            match stripQuotes l with
            | some cont =>
              match st.last with
              | PoField.fctx => { st with ctx := some (st.ctx.getD [] ++ cont) }
              | PoField.fid => { st with mid := some (st.mid.getD [] ++ cont) }
              | PoField.fstr => { st with mstr := some (st.mstr.getD [] ++ cont) }
              | PoField.fnone => st
            | none => st

/-- The empty record-parsing state. -/
def initRecState : RecState :=
  { locs := [], fz := false, ctx := none, mid := none, mstr := none, last := PoField.fnone }

/-- Modelled from the spec: parse one record by folding its lines (section 4.1). -/
def parseRecord (ls : List (List Char)) : RecState := ls.foldl stepLine initRecState

/-- Modelled from the spec: finish a record.  A record with a missing or empty
original-text field is a ParseError and yields no entry (the record is skipped);
otherwise the collected fields are unescaped and the context is split into segments
(section 4.1). -/
def recEntry (st : RecState) : Option Entry :=
  match st.mid with
  | none => none
  | some i =>
    if i = [] then none
    else
      some
        { context :=
            match st.ctx with
            | none => []
            | some c => (splitSegs (unescapeChars c)).map (fun l => (⟨l⟩ : String))
          original := ⟨unescapeChars i⟩
          translation := ⟨unescapeChars (st.mstr.getD [])⟩
          fuzzy := st.fz
          locations := st.locs.map (fun l => (⟨l⟩ : String)) }

/-- Modelled from the spec: parse a catalog text.  Records are the blank-line-separated
blocks; a leading record with an empty original-text field is the file-level metadata
record, preserved verbatim; malformed records are skipped (sections 4.1, 6). -/
def parsePO (ls : List (List Char)) : Catalog :=
  match splitRecs ls with
  | [] => { header := none, entries := [] }
  | r0 :: rest =>
    if (parseRecord r0).mid = some [] then
      { header := some r0, entries := rest.filterMap (fun r => recEntry (parseRecord r)) }
    else
      { header := none,
        entries := (r0 :: rest).filterMap (fun r => recEntry (parseRecord r)) }

/-- Modelled from the spec: serialize one entry as a record: location comments in
order, the fuzzy marker iff the entry is fuzzy, the context line when the context is
nonempty, then the original and translation lines, with escaping applied symmetrically
(section 4.1). -/
def writeEntry (e : Entry) : List (List Char) :=
  e.locations.map (fun s => locPrefix ++ s.data)
  ++ (if e.fuzzy then [fuzzyMarker] else [])
  ++ (if e.context = [] then []
      else [ctxPrefix ++ quoteChars (escapeChars (joinSegs (e.context.map String.data)))])
  ++ [idPrefix ++ quoteChars (escapeChars e.original.data),
      strPrefix ++ quoteChars (escapeChars e.translation.data)]

/-- Modelled from the spec: serialize a catalog: the preserved metadata record first
when present, then one record per entry in catalog order, records separated by blank
lines (sections 4.1, 6). -/
def writePO (c : Catalog) : List (List Char) :=
  joinRecs ((match c.header with | none => [] | some h => [h]) ++ c.entries.map writeEntry)

theorem ne_fuzzy_loc (l : List Char) : locPrefix ++ l ≠ fuzzyMarker := by
  simp [locPrefix, fuzzyMarker]

theorem ne_fuzzy_ctx (l : List Char) : ctxPrefix ++ l ≠ fuzzyMarker := by
  simp [ctxPrefix, fuzzyMarker]

theorem ne_fuzzy_id (l : List Char) : idPrefix ++ l ≠ fuzzyMarker := by
  simp [idPrefix, fuzzyMarker]

theorem ne_fuzzy_str (l : List Char) : strPrefix ++ l ≠ fuzzyMarker := by
  simp [strPrefix, fuzzyMarker]

theorem dropLoc_ctx (l : List Char) : dropPrefixChars locPrefix (ctxPrefix ++ l) = none := by
  simp [locPrefix, ctxPrefix, dropPrefixChars]

theorem dropLoc_id (l : List Char) : dropPrefixChars locPrefix (idPrefix ++ l) = none := by
  simp [locPrefix, idPrefix, dropPrefixChars]

theorem dropLoc_str (l : List Char) : dropPrefixChars locPrefix (strPrefix ++ l) = none := by
  simp [locPrefix, strPrefix, dropPrefixChars]

theorem dropLoc_fuzzy : dropPrefixChars locPrefix fuzzyMarker = none := by
  simp [locPrefix, fuzzyMarker, dropPrefixChars]

theorem parseTagged_self (p l : List Char) : parseTagged p (p ++ quoteChars l) = some l := by
  simp [parseTagged, dropPrefixChars_append, stripQuotes_quoteChars]

theorem parseTagged_ctx_id (l : List Char) : parseTagged ctxPrefix (idPrefix ++ l) = none := by
  simp [parseTagged, ctxPrefix, idPrefix, dropPrefixChars]

theorem parseTagged_ctx_str (l : List Char) : parseTagged ctxPrefix (strPrefix ++ l) = none := by
  simp [parseTagged, ctxPrefix, strPrefix, dropPrefixChars]

theorem parseTagged_id_str (l : List Char) : parseTagged idPrefix (strPrefix ++ l) = none := by
  simp [parseTagged, idPrefix, strPrefix, dropPrefixChars]

theorem stepLine_loc (st : RecState) (l : List Char) :
    stepLine st (locPrefix ++ l) = { st with locs := st.locs ++ [l], last := PoField.fnone } := by
  simp [stepLine, ne_fuzzy_loc, dropPrefixChars_append]

theorem stepLine_fuzzy (st : RecState) :
    stepLine st fuzzyMarker = { st with fz := true, last := PoField.fnone } := by
  simp [stepLine]

theorem stepLine_ctx (st : RecState) (c : List Char) :
    stepLine st (ctxPrefix ++ quoteChars c) =
      { st with ctx := some c, last := PoField.fctx } := by
  simp [stepLine, ne_fuzzy_ctx, dropLoc_ctx, parseTagged_self]

theorem stepLine_id (st : RecState) (i : List Char) :
    stepLine st (idPrefix ++ quoteChars i) =
      { st with mid := some i, last := PoField.fid } := by
  simp [stepLine, ne_fuzzy_id, dropLoc_id, parseTagged_ctx_id, parseTagged_self]

theorem stepLine_str (st : RecState) (s : List Char) :
    stepLine st (strPrefix ++ quoteChars s) =
      { st with mstr := some s, last := PoField.fstr } := by
  simp [stepLine, ne_fuzzy_str, dropLoc_str, parseTagged_ctx_str, parseTagged_id_str,
    parseTagged_self]

theorem foldl_locLines (ls : List String) (st : RecState) (h : st.last = PoField.fnone) :
    List.foldl stepLine st (ls.map (fun s => locPrefix ++ s.data)) =
      { st with locs := st.locs ++ ls.map String.data, last := PoField.fnone } := by
  induction ls generalizing st with
  | nil =>
    simp only [List.map_nil, List.foldl_nil, List.map_nil, List.append_nil]
    cases st; simp_all
  | cons s ls' ih =>
    simp only [List.map_cons, List.foldl_cons, stepLine_loc]
    rw [ih _ rfl]
    simp [List.append_assoc]

theorem parseRecord_writeEntry (e : Entry) :
    parseRecord (writeEntry e) =
      { locs := e.locations.map String.data,
        fz := e.fuzzy,
        ctx := if e.context = [] then none
               else some (escapeChars (joinSegs (e.context.map String.data))),
        mid := some (escapeChars e.original.data),
        mstr := some (escapeChars e.translation.data),
        last := PoField.fstr } := by
  unfold parseRecord writeEntry
  simp only [List.foldl_append]
  rw [foldl_locLines e.locations initRecState rfl]
  by_cases hctx : e.context = [] <;> cases hfz : e.fuzzy <;>
    simp [hctx, initRecState, stepLine_fuzzy, stepLine_ctx, stepLine_id, stepLine_str]

theorem string_mk_data (s : String) : (⟨s.data⟩ : String) = s := rfl

theorem string_data_eq_nil (s : String) : s.data = [] ↔ s = "" := by
  cases s with
  | mk d =>
    constructor
    · intro h; subst h; rfl
    · intro h; exact congrArg String.data h

theorem map_mk_data (l : List String) :
    (l.map String.data).map (fun d => (⟨d⟩ : String)) = l := by
  induction l with
  | nil => rfl
  | cons s ls ih => simp [ih, string_mk_data]

/-- Context well-formedness: a context as produced by the codec parse, namely empty or
stable under join-then-split. -/
def ctxWF (e : Entry) : Prop :=
  e.context = [] ∨ splitSegs (joinSegs (e.context.map String.data)) = e.context.map String.data

/-- Entry well-formedness as guaranteed by the codec parse: nonempty original text and
a well-formed context. -/
def entryWF (e : Entry) : Prop := e.original ≠ "" ∧ ctxWF e

/-- Catalog well-formedness as guaranteed by the codec parse: well-formed entries and,
when present, a metadata record that is a nonempty blank-free block parsing to an
empty original-text field. -/
def catWF (c : Catalog) : Prop :=
  (∀ e ∈ c.entries, entryWF e) ∧
  ∀ h, c.header = some h → h ≠ [] ∧ (∀ x ∈ h, x ≠ []) ∧ (parseRecord h).mid = some []

theorem map_mk_comp_data (l : List String) :
    List.map ((fun d => (⟨d⟩ : String)) ∘ String.data) l = l := by
  induction l with
  | nil => rfl
  | cons s ls ih => simp only [List.map_cons, ih]; rfl

theorem recEntry_writeEntry (e : Entry) (hor : e.original ≠ "") (hctx : ctxWF e) :
    recEntry (parseRecord (writeEntry e)) = some e := by
  rw [parseRecord_writeEntry]
  by_cases hc : e.context = []
  · simp [recEntry, escape_eq_nil, string_data_eq_nil, hor, unescape_escape, string_mk_data,
      map_mk_comp_data, hc]
    rw [← hc]
  · rcases hctx with h | h
    · exact absurd h hc
    · simp [recEntry, escape_eq_nil, string_data_eq_nil, hor, unescape_escape, string_mk_data,
        map_mk_comp_data, hc, h]

theorem writeEntry_lines_ne_nil (e : Entry) : ∀ l ∈ writeEntry e, l ≠ [] := by
  intro l hl
  unfold writeEntry at hl
  rcases List.mem_append.mp hl with h | h
  · rcases List.mem_append.mp h with h' | h'
    · rcases List.mem_append.mp h' with h'' | h''
      · obtain ⟨s, _, rfl⟩ := List.mem_map.mp h''
        simp [locPrefix]
      · rcases hf : e.fuzzy <;> rw [hf] at h'' <;> simp at h''
        subst h''; simp [fuzzyMarker]
    · by_cases hc : e.context = [] <;> simp [hc] at h'
      subst h'; simp [ctxPrefix]
  · rcases List.mem_cons.mp h with h' | h'
    · subst h'; simp [idPrefix]
    · simp at h'; subst h'; simp [strPrefix]

theorem writeEntry_ne_nil (e : Entry) : writeEntry e ≠ [] := by
  unfold writeEntry
  simp

theorem filterMap_writeEntry (es : List Entry) (h : ∀ e ∈ es, entryWF e) :
    es.filterMap (fun e => recEntry (parseRecord (writeEntry e))) = es := by
  induction es with
  | nil => rfl
  | cons e es' ih =>
    obtain ⟨h1, h2⟩ := h e (List.mem_cons_self e es')
    simp [List.filterMap_cons, recEntry_writeEntry e h1 h2,
      ih (fun x hx => h x (List.mem_cons_of_mem e hx))]

theorem splitRecs_writePO (c : Catalog) (hwf : catWF c) :
    splitRecs (writePO c) =
      (match c.header with | none => [] | some h => [h]) ++ c.entries.map writeEntry := by
  obtain ⟨hent, hhdr⟩ := hwf
  unfold writePO
  apply splitRecs_joinRecs
  intro r hr
  rcases List.mem_append.mp hr with h | h
  · cases hH : c.header with
    | none => rw [hH] at h; simp at h
    | some hd =>
      rw [hH] at h; simp at h; rw [h]
      exact ⟨(hhdr hd hH).1, (hhdr hd hH).2.1⟩
  · obtain ⟨e, _, rfl⟩ := List.mem_map.mp h
    exact ⟨writeEntry_ne_nil e, writeEntry_lines_ne_nil e⟩

/-- Parse is a left inverse of write on well-formed catalogs. -/
theorem parsePO_writePO (c : Catalog) (hwf : catWF c) : parsePO (writePO c) = c := by
  have hsplit := splitRecs_writePO c hwf
  obtain ⟨hent, hhdr⟩ := hwf
  cases c with
  | mk hdr ents =>
    simp only at hent hhdr hsplit
    cases hdr with
    | some hd =>
      obtain ⟨hh1, hh2, hh3⟩ := hhdr hd rfl
      unfold parsePO
      rw [hsplit]
      simp only [List.singleton_append, if_pos hh3, List.filterMap_map, Function.comp,
        Catalog.mk.injEq]
      exact ⟨trivial, filterMap_writeEntry ents hent⟩
    | none =>
      unfold parsePO
      rw [hsplit]
      cases hE : ents with
      | nil => simp
      | cons e0 es =>
        have h0 : ¬(parseRecord (writeEntry e0)).mid = some [] := by
          rw [parseRecord_writeEntry]
          simp only [Option.some.injEq, escape_eq_nil, string_data_eq_nil]
          exact (hent e0 (hE ▸ List.mem_cons_self e0 es)).1
        simp only [List.nil_append, List.map_cons, if_neg h0, Catalog.mk.injEq]
        refine ⟨trivial, ?_⟩
        have : (writeEntry e0 :: es.map writeEntry) = (e0 :: es).map writeEntry := rfl
        rw [this, List.filterMap_map]
        exact filterMap_writeEntry (e0 :: es) (hE ▸ hent)

theorem map_data_mk (l : List (List Char)) :
    (l.map (fun d => (⟨d⟩ : String))).map String.data = l := by
  induction l with
  | nil => rfl
  | cons d ds ih => simp only [List.map_cons, ih]

theorem recEntry_wf (st : RecState) (e : Entry) (h : recEntry st = some e) : entryWF e := by
  unfold recEntry at h
  cases hm : st.mid with
  | none => rw [hm] at h; exact absurd h (by simp)
  | some i =>
    rw [hm] at h
    simp only at h
    by_cases hi : i = []
    · rw [if_pos hi] at h; exact absurd h (by simp)
    · rw [if_neg hi] at h
      injection h with h
      subst h
      refine ⟨?_, ?_⟩
      · intro hcon
        have hdata : unescapeChars i = [] := by
          have := congrArg String.data hcon
          simpa using this
        exact hi ((unescape_eq_nil i).mp hdata)
      · unfold ctxWF
        cases hc : st.ctx with
        | none => left; simp [hc]
        | some c =>
          right
          simp only [hc, map_data_mk]
          exact splitSegs_idem (unescapeChars c)

theorem parsePO_wf (t : List (List Char)) : catWF (parsePO t) := by
  unfold parsePO
  cases hs : splitRecs t with
  | nil => exact ⟨by simp, by simp⟩
  | cons r0 rest =>
    have hmem : r0 ∈ splitRecs t := by rw [hs]; exact List.mem_cons_self r0 rest
    simp only
    by_cases h0 : (parseRecord r0).mid = some []
    · rw [if_pos h0]
      constructor
      · intro e he
        obtain ⟨r, _, hr⟩ := List.mem_filterMap.mp he
        exact recEntry_wf _ e hr
      · intro h hh
        injection hh with hh
        subst hh
        have hw := splitRecs_wf t [] (by simp) r0 hmem
        exact ⟨hw.1, hw.2, h0⟩
    · rw [if_neg h0]
      constructor
      · intro e he
        obtain ⟨r, _, hr⟩ := List.mem_filterMap.mp he
        exact recEntry_wf _ e hr
      · intro h hh
        exact absurd hh (by simp)

/-- C4: for every catalog produced by the codec parse, parsing the written form gives
the catalog back, and for every text produced by the codec itself, writing the parse of
that text reproduces it byte for byte. -/
theorem codec_roundtrip (t : List (List Char)) :
    parsePO (writePO (parsePO t)) = parsePO t ∧
    writePO (parsePO (writePO (parsePO t))) = writePO (parsePO t) := by
  have h := parsePO_writePO (parsePO t) (parsePO_wf t)
  exact ⟨h, congrArg writePO h⟩

/-- Modelled from the spec: the identity key of an entry is the pair of its context and
its original text (section 3). -/
def key (e : Entry) : List String × String := (e.context, e.original)

/-- Modelled from the spec: merge one fresh entry against the existing catalog: when an
existing entry with the same identity key is found, its translation and fuzzy flag are
copied into a new entry built from the fresh one; otherwise the fresh entry is kept
unchanged (section 4.3, step 1). -/
def mergeOne (existing : List Entry) (e : Entry) : Entry :=
  match existing.find? (fun x => key x = key e) with
  | some m => { e with translation := m.translation, fuzzy := m.fuzzy }
  | none => e

/-- Modelled from the spec: `Merge(fresh, existing)` returns the merged catalog (one
entry per fresh entry, in fresh order) and the stale catalog (the existing entries
whose identity key has no counterpart in fresh, in existing order) (section 4.3). -/
def mergeCatalogs (fresh existing : List Entry) : List Entry × List Entry :=
  (fresh.map (mergeOne existing),
   existing.filter (fun x => !(fresh.any (fun e => key e = key x))))

theorem key_mergeOne (existing : List Entry) (e : Entry) :
    key (mergeOne existing e) = key e := by
  unfold mergeOne
  cases existing.find? (fun x => key x = key e) <;> rfl

/-- C1: a fresh entry whose identity key is found in the existing catalog ends up in
the merged catalog with context, original and locations from the fresh entry and
translation and fuzzy flag copied from the existing match; a fresh entry whose key is
not found is kept unchanged in the merged catalog. -/
theorem merge_identity_preservation (fresh existing : List Entry) (e : Entry)
    (he : e ∈ fresh) :
    (∀ m, existing.find? (fun x => key x = key e) = some m →
      ∃ e' ∈ (mergeCatalogs fresh existing).1,
        e'.context = e.context ∧ e'.original = e.original ∧ e'.locations = e.locations ∧
        e'.translation = m.translation ∧ e'.fuzzy = m.fuzzy) ∧
    (existing.find? (fun x => key x = key e) = none →
      e ∈ (mergeCatalogs fresh existing).1) := by
  constructor
  · intro m hm
    refine ⟨mergeOne existing e, List.mem_map_of_mem (mergeOne existing) he, ?_⟩
    unfold mergeOne
    rw [hm]
    exact ⟨rfl, rfl, rfl, rfl, rfl⟩
  · intro hnone
    have : mergeOne existing e = e := by unfold mergeOne; rw [hnone]
    exact this ▸ List.mem_map_of_mem (mergeOne existing) he

/-- Witness for `merge_identity_preservation` at a concrete merge. -/
theorem merge_identity_preservation_witness :
    (∀ m, [Entry.mk ["c"] "Hello" "Bonjour" true []].find?
        (fun x => key x = key (Entry.mk ["c"] "Hello" "" false ["f1"])) = some m →
      ∃ e' ∈ (mergeCatalogs [Entry.mk ["c"] "Hello" "" false ["f1"]]
          [Entry.mk ["c"] "Hello" "Bonjour" true []]).1,
        e'.context = ["c"] ∧ e'.original = "Hello" ∧ e'.locations = ["f1"] ∧
        e'.translation = m.translation ∧ e'.fuzzy = m.fuzzy) ∧
    ([Entry.mk ["c"] "Hello" "Bonjour" true []].find?
        (fun x => key x = key (Entry.mk ["c"] "Hello" "" false ["f1"])) = none →
      Entry.mk ["c"] "Hello" "" false ["f1"] ∈
        (mergeCatalogs [Entry.mk ["c"] "Hello" "" false ["f1"]]
          [Entry.mk ["c"] "Hello" "Bonjour" true []]).1) :=
  merge_identity_preservation [Entry.mk ["c"] "Hello" "" false ["f1"]]
    [Entry.mk ["c"] "Hello" "Bonjour" true []]
    (Entry.mk ["c"] "Hello" "" false ["f1"]) (by decide)

/-- C2: the merged catalog always has exactly as many entries as the fresh catalog,
whatever the existing catalog is. -/
theorem merge_completeness (fresh existing : List Entry) :
    (mergeCatalogs fresh existing).1.length = fresh.length := by
  simp [mergeCatalogs]

/-- C3: an existing entry whose identity key has no counterpart in fresh is placed
unchanged in the stale catalog, the stale catalog preserves existing order (it is a
sublist of existing), and such an entry does not appear in the merged catalog. -/
theorem merge_staleness (fresh existing : List Entry) (x : Entry)
    (hx : x ∈ existing) (hno : ∀ e ∈ fresh, key e ≠ key x) :
    x ∈ (mergeCatalogs fresh existing).2 ∧
    x ∉ (mergeCatalogs fresh existing).1 ∧
    (mergeCatalogs fresh existing).2.Sublist existing := by
  refine ⟨?_, ?_, List.filter_sublist existing⟩
  · simp only [mergeCatalogs, List.mem_filter]
    refine ⟨hx, ?_⟩
    simp only [Bool.not_eq_eq_eq_not, Bool.not_true, List.any_eq_false]
    intro e hefresh
    simpa using hno e hefresh
  · intro hmem
    simp only [mergeCatalogs] at hmem
    obtain ⟨e, hefresh, hmo⟩ := List.mem_map.mp hmem
    have hk : key e = key x := by rw [← hmo, key_mergeOne]
    exact hno e hefresh hk

/-- Witness for `merge_staleness` at a concrete merge. -/
theorem merge_staleness_witness :
    Entry.mk ["b"] "B" "tr" false [] ∈
      (mergeCatalogs [Entry.mk ["a"] "A" "" false []] [Entry.mk ["b"] "B" "tr" false []]).2 ∧
    Entry.mk ["b"] "B" "tr" false [] ∉
      (mergeCatalogs [Entry.mk ["a"] "A" "" false []] [Entry.mk ["b"] "B" "tr" false []]).1 ∧
    (mergeCatalogs [Entry.mk ["a"] "A" "" false []]
      [Entry.mk ["b"] "B" "tr" false []]).2.Sublist [Entry.mk ["b"] "B" "tr" false []] :=
  merge_staleness [Entry.mk ["a"] "A" "" false []] [Entry.mk ["b"] "B" "tr" false []]
    (Entry.mk ["b"] "B" "tr" false []) (by decide) (by decide)

/-- C7: merging the already-merged catalog against the same fresh catalog produces no
stale entries. -/
theorem merge_idempotent_stale (fresh existing : List Entry) :
    (mergeCatalogs fresh (mergeCatalogs fresh existing).1).2 = [] := by
  simp only [mergeCatalogs, List.filter_eq_nil_iff]
  intro x hx
  obtain ⟨e, hefresh, hmo⟩ := List.mem_map.mp hx
  have hk : key e = key x := by rw [← hmo, key_mergeOne]
  simp only [Bool.not_eq_eq_eq_not, Bool.not_true, List.any_eq_false, not_forall,
    Bool.not_eq_true, Decidable.not_not]
  exact ⟨e, hefresh, by simp [hk]⟩

/-- Modelled from the spec: match one destination entry against the source catalog.
Entries are joined on exact equality of original texts, context intentionally ignored
(section 4.4).  A unique exact match fills the translation with the matching source
entry's original text — per the CLI contract in main.cpp, "the original in MDIR
becomes the translation" — and counts as one exact match.  With no exact match, the
implementation-defined approximate comparator `near` (left open by the spec, section 9)
may supply a fuzzy candidate; otherwise, and when the exact match is ambiguous, the
entry is unchanged and goes to the stale set.  The result is the updated entry, its
contribution to the matched count, and whether it is stale. -/
def matchOne (near : String → List Entry → Option Entry) (src : List Entry)
    (d : Entry) : Entry × Nat × Bool :=
  match src.filter (fun s => s.original = d.original) with
  | [s] => ({ d with translation := s.original }, 1, false)
  | [] =>
    match near d.original src with
    | some s => ({ d with translation := s.original, fuzzy := true }, 0, false)
    | none => (d, 0, true)
  | _ => (d, 0, true)

/-- Modelled from the spec: `Match(destination, source)` returns the updated
destination (original order preserved), the exact-match count and the stale set
(section 4.4). -/
def matchCatalog (near : String → List Entry → Option Entry)
    (dst src : List Entry) : List Entry × Nat × List Entry :=
  (dst.map (fun d => (matchOne near src d).1),
   (dst.map (fun d => (matchOne near src d).2.1)).sum,
   dst.filter (fun d => (matchOne near src d).2.2))

theorem matchOne_count (near : String → List Entry → Option Entry) (src : List Entry)
    (d : Entry) :
    (matchOne near src d).2.1 =
      if (src.filter (fun s => s.original = d.original)).length = 1 then 1 else 0 := by
  unfold matchOne
  cases hf : src.filter (fun s => s.original = d.original) with
  | nil => cases near d.original src <;> simp
  | cons s rest => cases rest <;> simp

theorem matchCount_eq_filter_length (near : String → List Entry → Option Entry)
    (dst src : List Entry) :
    (matchCatalog near dst src).2.1 =
      (dst.filter
        (fun d => (src.filter (fun s => s.original = d.original)).length = 1)).length := by
  unfold matchCatalog
  induction dst with
  | nil => rfl
  | cons d ds ih =>
    simp only at ih
    simp only [matchOne_count] at ih
    simp only [List.map_cons, List.sum_cons, matchOne_count, List.filter_cons]
    by_cases h : (src.filter (fun s => s.original = d.original)).length = 1
    · simp [h, ih, Nat.add_comm]
    · simp [h, ih]

/-- C5: when the source catalog contains exactly one entry whose original equals the
destination entry's original, Match fills that destination entry's translation with
the source entry's original text (the counterpart text per the CLI contract), leaves
the fuzzy flag false when it was false, and the matched count equals the number of
destination entries with a unique exact match, so each such entry contributes exactly
one. -/
theorem match_exact_unique (near : String → List Entry → Option Entry)
    (dst src : List Entry) (d s : Entry)
    (hd : d ∈ dst)
    (hu : src.filter (fun x => x.original = d.original) = [s])
    (hf : d.fuzzy = false) :
    (∃ u ∈ (matchCatalog near dst src).1,
      u.context = d.context ∧ u.original = d.original ∧ u.locations = d.locations ∧
      u.translation = s.original ∧ u.fuzzy = false) ∧
    (matchCatalog near dst src).2.1 =
      (dst.filter
        (fun d2 => (src.filter (fun x => x.original = d2.original)).length = 1)).length := by
  refine ⟨?_, matchCount_eq_filter_length near dst src⟩
  refine ⟨(matchOne near src d).1, List.mem_map_of_mem _ hd, ?_⟩
  unfold matchOne
  rw [hu]
  exact ⟨rfl, rfl, rfl, rfl, hf⟩

/-- Witness for `match_exact_unique` at a concrete match. -/
theorem match_exact_unique_witness :
    (∃ u ∈ (matchCatalog (fun _ _ => none) [Entry.mk [] "Attack" "" false []]
        [Entry.mk ["x"] "Attack" "" false []]).1,
      u.context = [] ∧ u.original = "Attack" ∧ u.locations = [] ∧
      u.translation = "Attack" ∧ u.fuzzy = false) ∧
    (matchCatalog (fun _ _ => none) [Entry.mk [] "Attack" "" false []]
        [Entry.mk ["x"] "Attack" "" false []]).2.1 =
      ([Entry.mk [] "Attack" "" false []].filter
        (fun d2 => (([Entry.mk ["x"] "Attack" "" false []]).filter
          (fun x => x.original = d2.original)).length = 1)).length :=
  match_exact_unique (fun _ _ => none) [Entry.mk [] "Attack" "" false []]
    [Entry.mk ["x"] "Attack" "" false []]
    (Entry.mk [] "Attack" "" false []) (Entry.mk ["x"] "Attack" "" false [])
    (by decide) (by decide) (by decide)

/-- File-system operations performed by the write paths of main.cpp: constructing a
std::ofstream on a path opens it with truncation, and the subsequent Translation
write streams the serialized text into the handle. -/
inductive FsOp where
  | openTrunc : String → FsOp
  | writeAll : String → List (List Char) → FsOp
deriving DecidableEq

/-- Effect of one file-system operation on the file contents (a map from path to the
lines stored there): opening with truncation empties the file, writing appends the
text to the current contents. -/
def applyOp (st : String → Option (List (List Char))) :
    FsOp → String → Option (List (List Char))
  | FsOp.openTrunc n, m => if m = n then some [] else st m
  | FsOp.writeAll n c, m => if m = n then some ((st n).getD [] ++ c) else st m

/-- Run a sequence of file-system operations from an initial contents map. -/
def runOps (st : String → Option (List (List Char))) (ops : List FsOp) :
    String → Option (List (List Char)) :=
  ops.foldl applyOp st

/-- Embedded from main.cpp (DumpLdb lines 233-234, DumpLmuLmtInner lines 275-277,
MatchMode lines 336-337): the catalog is written by constructing `std::ofstream
outfile(path)` — which truncates any existing file at that path — and then streaming
the serialized text into it. -/
def writeCatalogOps (path : String) (c : Catalog) : List FsOp :=
  [FsOp.openTrunc path, FsOp.writeAll path (writePO c)]

/-- A prior file contents map with an existing non-empty catalog at the output path. -/
def oldSt : String → Option (List (List Char)) :=
  fun m => if m = "RPG_RT.ldb.po" then some [['o', 'l', 'd']] else none

/-- A concrete one-entry catalog being written. -/
def cexCat : Catalog :=
  { header := none, entries := [Entry.mk [] "Hello" "" false []] }

/-- C6 counterexample: it is not the case that every prefix of the write sequence
leaves the output file either with its previous contents or with the complete
serialized text: after the truncating open but before the write, a previously
existing file has already been replaced by an empty one. -/
theorem write_truncates_counterexample :
    ¬(∀ pre : List FsOp, pre <+: writeCatalogOps "RPG_RT.ldb.po" cexCat →
        runOps oldSt pre "RPG_RT.ldb.po" = oldSt "RPG_RT.ldb.po" ∨
        runOps oldSt pre "RPG_RT.ldb.po" = some (writePO cexCat)) := by
  intro h
  have hpre : [FsOp.openTrunc "RPG_RT.ldb.po"] <+: writeCatalogOps "RPG_RT.ldb.po" cexCat :=
    ⟨[FsOp.writeAll "RPG_RT.ldb.po" (writePO cexCat)], rfl⟩
  have := h [FsOp.openTrunc "RPG_RT.ldb.po"] hpre
  revert this
  decide

/-- C6 amended: the write path truncates the destination file at open before any of
the serialized text reaches it, so a failure between open and write leaves an empty
(truncated) file in place of a previously existing one; only the completed
open-then-write sequence leaves the complete serialized text. -/
theorem write_truncate_then_full (st : String → Option (List (List Char)))
    (path : String) (c : Catalog) :
    runOps st (writeCatalogOps path c) path = some (writePO c) ∧
    runOps st [FsOp.openTrunc path] path = some [] := by
  constructor <;> simp [runOps, writeCatalogOps, applyOp]

/-- Embedded from main.cpp, DumpLmuLmtInner (lines 251-278): when the extracted
catalog is empty the file is skipped with no output at all; otherwise, in update mode
with an existing output file found, the existing catalog is merged in, the stale
catalog is written to `poname ++ ".stale.po"` only when non-empty, and the merged
catalog is written to `poname ++ ".po"`; in every other case the fresh catalog is
written to `poname ++ ".po"`.  The result is the ordered list of (file name, entries
written) pairs; the Merge step is the spec-modelled `mergeCatalogs`. -/
def dumpInner (upd : Bool) (existingPo : Option (List Entry)) (fresh : List Entry)
    (poname : String) : List (String × List Entry) :=
  if fresh = [] then []
  else
    match upd, existingPo with
    | true, some pot =>
      let m := mergeCatalogs fresh pot
      (if m.2 = [] then [] else [(poname ++ ".stale.po", m.2)]) ++ [(poname ++ ".po", m.1)]
    | _, _ => [(poname ++ ".po", fresh)]

/-- Embedded from main.cpp, DumpLdb's dump lambda (lines 216-235): identical to
`dumpInner` except that database catalogs are written even when empty (DumpLdb has no
empty-catalog skip). -/
def dumpLdbOne (upd : Bool) (existingPo : Option (List Entry)) (terms : List Entry)
    (poname : String) : List (String × List Entry) :=
  match upd, existingPo with
  | true, some pot =>
    let m := mergeCatalogs terms pot
    (if m.2 = [] then [] else [(poname ++ ".stale.po", m.2)]) ++ [(poname ++ ".po", m.1)]
  | _, _ => [(poname ++ ".po", terms)]

theorem merge_nil_existing (fresh : List Entry) : mergeCatalogs fresh [] = (fresh, []) := by
  have hid : mergeOne [] = fun e => e := funext fun e => rfl
  simp [mergeCatalogs, hid]

theorem stale_name_ne_po_name (poname : String) :
    poname ++ ".stale.po" ≠ poname ++ ".po" := by
  intro h
  have := congrArg String.length h
  simp only [String.length_append] at this
  have h1 : ".stale.po".length = 9 := rfl
  have h2 : ".po".length = 3 := rfl
  rw [h1, h2] at this
  omega

/-- C8: in the update workflow (with a missing existing output file read as the empty
existing catalog, for which merging is the identity), the merged catalog is always
written to the output `.po` file, and the distinctly-named stale output file is
written if and only if the stale catalog produced by the merge is non-empty; this
holds for the database dump unconditionally and for the map/map-tree dump whenever the
extracted catalog is non-empty. -/
theorem update_workflow_writes (pot : Option (List Entry)) (fresh : List Entry)
    (poname : String) (hne : fresh ≠ []) :
    ((poname ++ ".po", (mergeCatalogs fresh (pot.getD [])).1) ∈
        dumpInner true pot fresh poname) ∧
    ((poname ++ ".stale.po") ∈ (dumpInner true pot fresh poname).map Prod.fst ↔
      (mergeCatalogs fresh (pot.getD [])).2 ≠ []) ∧
    (poname ++ ".stale.po" ≠ poname ++ ".po") ∧
    ((poname ++ ".po", (mergeCatalogs fresh (pot.getD [])).1) ∈
        dumpLdbOne true pot fresh poname) ∧
    ((poname ++ ".stale.po") ∈ (dumpLdbOne true pot fresh poname).map Prod.fst ↔
      (mergeCatalogs fresh (pot.getD [])).2 ≠ []) := by
  cases pot with
  | none =>
    simp only [dumpInner, dumpLdbOne, if_neg hne, Option.getD_none, merge_nil_existing]
    refine ⟨by simp, ?_, stale_name_ne_po_name poname, by simp, ?_⟩ <;>
      simp [stale_name_ne_po_name poname]
  | some ex =>
    simp only [dumpInner, dumpLdbOne, if_neg hne, Option.getD_some]
    by_cases hstale : (mergeCatalogs fresh ex).2 = [] <;>
      simp [hstale, stale_name_ne_po_name poname]

/-- Witness for `update_workflow_writes` at a concrete update run. -/
theorem update_workflow_writes_witness :
    (("RPG_RT.ldb" ++ ".po",
        (mergeCatalogs [Entry.mk [] "A" "" false []] ((some []).getD [])).1) ∈
      dumpInner true (some []) [Entry.mk [] "A" "" false []] "RPG_RT.ldb") ∧
    (("RPG_RT.ldb" ++ ".stale.po") ∈
        (dumpInner true (some []) [Entry.mk [] "A" "" false []] "RPG_RT.ldb").map Prod.fst ↔
      (mergeCatalogs [Entry.mk [] "A" "" false []] ((some []).getD [])).2 ≠ []) ∧
    ("RPG_RT.ldb" ++ ".stale.po" ≠ "RPG_RT.ldb" ++ ".po") ∧
    (("RPG_RT.ldb" ++ ".po",
        (mergeCatalogs [Entry.mk [] "A" "" false []] ((some []).getD [])).1) ∈
      dumpLdbOne true (some []) [Entry.mk [] "A" "" false []] "RPG_RT.ldb") ∧
    (("RPG_RT.ldb" ++ ".stale.po") ∈
        (dumpLdbOne true (some []) [Entry.mk [] "A" "" false []] "RPG_RT.ldb").map Prod.fst ↔
      (mergeCatalogs [Entry.mk [] "A" "" false []] ((some []).getD [])).2 ≠ []) :=
  update_workflow_writes (some []) [Entry.mk [] "A" "" false []] "RPG_RT.ldb" (by decide)

/-- C10: a map or map-tree file whose extraction yields an empty catalog produces no
output file at all — no merge result and no write, in create mode and in update mode
alike. -/
theorem empty_catalog_skipped (upd : Bool) (pot : Option (List Entry)) (poname : String) :
    dumpInner upd pot [] poname = [] := by
  simp [dumpInner]

/-- Ordering used by main.cpp on discovered files, pairs of (name, lowercased name):
`std::sort` with comparator `a.first < b.first` arranges the list in ascending
byte-wise order of the first component (lines 181-183 and 291-293). -/
def fileLe (a b : String × String) : Prop := a.1 ≤ b.1

instance : DecidableRel fileLe := fun a b => inferInstanceAs (Decidable (a.1 ≤ b.1))

instance : IsTotal (String × String) fileLe := ⟨fun a b => le_total a.1 b.1⟩

instance : IsTrans (String × String) fileLe := ⟨fun _ _ _ hab hbc => le_trans hab hbc⟩

/-- Embedded from main.cpp (lines 181-183 and 291-293): the discovered source files
are sorted by ascending filename comparison before any file is processed. -/
def sortFiles (files : List (String × String)) : List (String × String) :=
  List.insertionSort fileLe files

theorem sorted_perm_key_eq :
    ∀ l₁ l₂ : List (String × String), List.Sorted fileLe l₁ → List.Sorted fileLe l₂ →
      l₁.Perm l₂ → (∀ p ∈ l₁, ∀ q ∈ l₁, p.1 = q.1 → p = q) → l₁ = l₂ := by
  intro l₁
  induction l₁ with
  | nil =>
    intro l₂ _ _ hperm _
    exact hperm.symm.eq_nil.symm
  | cons a t₁ ih =>
    intro l₂ hs₁ hs₂ hperm hinj
    cases l₂ with
    | nil => exact absurd hperm.eq_nil (by simp)
    | cons b t₂ =>
      have hab : a = b := by
        have ha2 : a ∈ b :: t₂ := hperm.mem_iff.mp (List.mem_cons_self a t₁)
        have hb1 : b ∈ a :: t₁ := hperm.mem_iff.mpr (List.mem_cons_self b t₂)
        rcases List.mem_cons.mp ha2 with h | hat₂
        · exact h
        rcases List.mem_cons.mp hb1 with h | hbt₁
        · exact h.symm
        have h1 : fileLe a b := (List.sorted_cons.mp hs₁).1 b hbt₁
        have h2 : fileLe b a := (List.sorted_cons.mp hs₂).1 a hat₂
        exact hinj a (List.mem_cons_self a t₁) b (List.mem_cons.mpr (Or.inr hbt₁))
          (le_antisymm h1 h2)
      subst hab
      have htl := ih t₂ (List.sorted_cons.mp hs₁).2 (List.sorted_cons.mp hs₂).2
        hperm.cons_inv
        (fun p hp q hq hk =>
          hinj p (List.mem_cons_of_mem a hp) q (List.mem_cons_of_mem a hq) hk)
      rw [htl]

/-- C9: the processing order is the ascending sort of the discovered file list, so for
any two enumeration orders of the same directory contents (same entries up to
permutation, with the name determining the entry), the sorted lists are identical;
the sorted list is ordered by ascending filename and is a permutation of the
enumeration. -/
theorem sorted_processing_deterministic (l₁ l₂ : List (String × String))
    (hperm : l₁.Perm l₂)
    (hinj : ∀ p ∈ l₁, ∀ q ∈ l₁, p.1 = q.1 → p = q) :
    sortFiles l₁ = sortFiles l₂ ∧
    List.Sorted fileLe (sortFiles l₁) ∧
    (sortFiles l₁).Perm l₁ := by
  have hp₁ := List.perm_insertionSort fileLe l₁
  have hp₂ := List.perm_insertionSort fileLe l₂
  have hs₁ := List.sorted_insertionSort fileLe l₁
  have hs₂ := List.sorted_insertionSort fileLe l₂
  refine ⟨?_, hs₁, hp₁⟩
  apply sorted_perm_key_eq _ _ hs₁ hs₂ (hp₁.trans (hperm.trans hp₂.symm))
  intro p hp q hq
  exact hinj p (hp₁.mem_iff.mp hp) q (hp₁.mem_iff.mp hq)

/-- Witness for `sorted_processing_deterministic` at two enumeration orders of the
same two files. -/
theorem sorted_processing_deterministic_witness :
    sortFiles [("b.lmu", "b.lmu"), ("a.lmu", "a.lmu")] =
      sortFiles [("a.lmu", "a.lmu"), ("b.lmu", "b.lmu")] ∧
    List.Sorted fileLe (sortFiles [("b.lmu", "b.lmu"), ("a.lmu", "a.lmu")]) ∧
    (sortFiles [("b.lmu", "b.lmu"), ("a.lmu", "a.lmu")]).Perm
      [("b.lmu", "b.lmu"), ("a.lmu", "a.lmu")] :=
  sorted_processing_deterministic [("b.lmu", "b.lmu"), ("a.lmu", "a.lmu")]
    [("a.lmu", "a.lmu"), ("b.lmu", "b.lmu")] (by decide) (by decide)
